import Mathlib

/-!
Shallow embedding of the training-loop orchestrator of `bias_transfer`
(`bias_transfer/trainer/utils.py`, `bias_transfer/trainer/main_loop_modules/
lottery_ticket_pruning.py`) together with proofs about the data cyclers, the
early-stopping controller, and the lottery-ticket pruner.

Scalars computed by the program are modelled as rationals; IEEE special
values (infinities, NaN), which matter for the divergence check of the
controller, are modelled by an explicit `Score` type.  Python's
`itertools.cycle` is modelled by an explicit cursor; `next` on an exhausted
iterator (`StopIteration` on an empty cycle) is modelled by `Option`.
-/

namespace NNTransfer

/-! ### Python `itertools.cycle` and helper machinery -/

/-- One `next` on `itertools.cycle(l)` whose cursor is `pos`: yields
`l[pos % len l]`; for an empty `l` the very first `next` raises
`StopIteration`, modelled as `none` (note `pos % 0 = pos`). -/
def cycNext {β : Type} (l : List β) (pos : ℕ) : Option β :=
  l.get? (pos % l.length)

/-- Pointwise update of a family of cursors (one cursor per underlying
iterator, as each `cycle` object keeps its own position). -/
def fupd (f : ℕ → ℕ) (i v : ℕ) : ℕ → ℕ :=
  fun j => if j = i then v else f j

/-! ### `LongCycler` (`bias_transfer/trainer/utils.py`, lines 228-248)

A keyed source map (a Python `dict`) is modelled as an association list in
enumeration order. -/

/-- The `max([len(loader) for loader in self.loaders.values()])` of
`LongCycler.__init__`. -/
def maxBatches {K β : Type} (loaders : List (K × List β)) : ℕ :=
  (loaders.map (fun p => p.2.length)).foldr max 0

/-- The body of `LongCycler.__iter__`: `m` remaining steps of the
`zip(cycle(keys), cycle(cycles), range(...))` loop, starting at step index
`t`, with `counters i` the cursor of the cycle of the `i`-th loader. -/
def longCyclerSteps {K β : Type} (loaders : List (K × List β)) :
    (ℕ → ℕ) → ℕ → ℕ → Option (List (K × β))
  | _, _, 0 => some []
  | counters, t, m + 1 =>
    match loaders.get? (t % loaders.length) with
    | none => none
    | some (k, l) =>
      match cycNext l (counters (t % loaders.length)) with
      | none => none
      | some b =>
        (longCyclerSteps loaders
            (fupd counters (t % loaders.length) (counters (t % loaders.length) + 1))
            (t + 1) m).map
          (fun rest => (k, b) :: rest)

/-- `LongCycler`: iterate `len(loaders) * max_batches` steps round-robin over
the keyed loaders, each loader wrapped in its own `cycle`. -/
def longCycler {K β : Type} (loaders : List (K × List β)) : Option (List (K × β)) :=
  longCyclerSteps loaders (fun _ => 0) 0 (loaders.length * maxBatches loaders)

/-- Closed form for the pair produced at global step `t`: the key of loader
`t % n` paired with that loader's batch number `(t / n) % len`. -/
def lcExpected {K β : Type} [Inhabited K] [Inhabited β]
    (loaders : List (K × List β)) (t : ℕ) : K × β :=
  let p := loaders.getD (t % loaders.length) default
  (p.1, p.2.getD (t / loaders.length % p.2.length) default)

/-! ### `MTL_Cycler` (`bias_transfer/trainer/utils.py`, lines 202-225)

State of one iteration: the cursor of `cycle(main_loader)`, the cursor of
`cycle(other_cycles.items())` (`dp`), and one cursor per non-main loader
(`oc`).  Each `next(other_cycles_dict)` advances `dp`; each draw from the
selected loader advances that loader's own cursor. -/

/-- The inner `for _ in range(self.ratio)` of `MTL_Cycler.generate_batch`:
draw `s` batches round-robin from the non-main loaders.  Returns the drawn
pairs together with the advanced cursors. -/
def mtlInner {K β : Type} (others : List (K × List β)) :
    (ℕ → ℕ) → ℕ → ℕ → Option (List (K × β) × ℕ × (ℕ → ℕ))
  | oc, dp, 0 => some ([], dp, oc)
  | oc, dp, s + 1 =>
    match others.get? (dp % others.length) with
    | none => none
    | some (k, l) =>
      match cycNext l (oc (dp % others.length)) with
      | none => none
      | some b =>
        (mtlInner others (fupd oc (dp % others.length) (oc (dp % others.length) + 1))
            (dp + 1) s).map
          (fun r => ((k, b) :: r.1, r.2))

/-- The outer `for i in range(len(self.main_loader))` of
`MTL_Cycler.generate_batch`/`__iter__`: one batch from the main cycle, then
`ratio` batches from the non-main loaders, `rem` main steps remaining. -/
def mtlOuter {K β : Type} (mainKey : K) (main : List β) (others : List (K × List β))
    (ratio : ℕ) : ℕ → (ℕ → ℕ) → ℕ → ℕ → Option (List (K × β))
  | _, _, _, 0 => some []
  | mp, oc, dp, rem + 1 =>
    match cycNext main mp with
    | none => none
    | some b =>
      match mtlInner others oc dp ratio with
      | none => none
      | some r =>
        (mtlOuter mainKey main others ratio (mp + 1) r.2.2 r.2.1 rem).map
          (fun rest => (mainKey, b) :: r.1 ++ rest)

/-- `MTL_Cycler` over a keyed source map: look up the main loader, cycle the
remaining loaders, and interleave `ratio` non-main batches after each of the
`len(main_loader)` main batches. -/
def mtlCycler {K β : Type} [DecidableEq K]
    (loaders : List (K × List β)) (mainKey : K) (ratio : ℕ) : Option (List (K × β)) :=
  match loaders.lookup mainKey with
  | none => none
  | some main =>
      mtlOuter mainKey main (loaders.filter (fun p => !(p.1 == mainKey))) ratio
        0 (fun _ => 0) 0 main.length

/-- `MTL_Cycler.__len__`: `len(self.main_loader) * (ratio + 1)`. -/
def mtlNumBatches {β : Type} (main : List β) (ratio : ℕ) : ℕ :=
  main.length * (ratio + 1)

/-- Closed form of one main block of the `MTL_Cycler` output: main batch `i`
followed by non-main slots `i * ratio, ..., i * ratio + ratio - 1`. -/
def mtlBlock {K β : Type} [Inhabited K] [Inhabited β] (mainKey : K) (main : List β)
    (others : List (K × List β)) (ratio : ℕ) (i : ℕ) : List (K × β) :=
  (mainKey, main.getD i default) ::
    (List.range ratio).map (fun s => lcExpected others (i * ratio + s))

/-! ### Scores and objective records

The controller compares floating-point scalars; infinities and NaN matter
only for the divergence check and for the comparison semantics (every
comparison against NaN is false), so scores are modelled as rationals
extended with the three special values. -/

/-- A floating-point score: a finite rational, an infinity, or NaN. -/
inductive Score where
  | fin (q : ℚ)
  | posInf
  | negInf
  | nan
deriving DecidableEq, Repr

/-- The `<` comparison on scores, with IEEE semantics for the special
values: any comparison involving NaN is false. -/
def Score.lt : Score → Score → Bool
  | _, .nan => false
  | .nan, _ => false
  | .fin a, .fin b => a < b
  | .fin _, .posInf => true
  | .fin _, .negInf => false
  | .posInf, _ => false
  | .negInf, .negInf => false
  | .negInf, _ => true

/-- Negation of a score (IEEE negation: infinities swap, NaN stays NaN). -/
def Score.neg : Score → Score
  | .fin q => .fin (-q)
  | .posInf => .negInf
  | .negInf => .posInf
  | .nan => .nan

/-- Multiplication of a score by a sign that is `1` or `-1` (the code only
ever multiplies scores by `-1 if maximize else 1`). -/
def Score.mulSign (s : Score) (sign : ℤ) : Score :=
  if sign < 0 then s.neg else s

/-- Subtraction of a finite tolerance from a score. -/
def Score.subQ : Score → ℚ → Score
  | .fin a, t => .fin (a - t)
  | s, _ => s

/-- Addition of a finite tolerance to a score. -/
def Score.addQ : Score → ℚ → Score
  | .fin a, t => .fin (a + t)
  | s, _ => s

/-- The `np.isfinite` test. -/
def Score.isFinite : Score → Bool
  | .fin _ => true
  | _ => false

/-- One task's entry of an objective record: the `{eval, loss}` scalars. -/
structure TaskObj where
  eval : Score
  loss : Score
deriving DecidableEq, Repr

/-- An objective record, a task-key-indexed mapping of `{eval, loss}`
entries, modelled positionally in key-enumeration order. -/
abbrev Objective := List TaskObj

/-- The local `isnotfinite` predicate of `early_stopping` (`~np.isfinite`). -/
def isnotfinite (s : Score) : Bool :=
  !s.isFinite

/-- `map_to_task_dict`: apply `fn` to every value of every task of the
record and collect the results (`utils.py`, lines 53-63). -/
def map_to_task_dict (task_dict : Objective) (fn : Score → Bool) : List Bool :=
  task_dict.flatMap (fun t => [fn t.eval, fn t.loss])

/-- The divergence test of the epoch loop:
`map_to_task_dict(current_objective, isnotfinite).any()`. -/
def objectiveDiverged (o : Objective) : Bool :=
  (map_to_task_dict o isnotfinite).any id

/-- The sign the code turns `maximize` into: `-1 if maximize else 1`
(`utils.py`, line 117). -/
def signOfMaximize (maximize : Bool) : ℤ :=
  if maximize then -1 else 1

/-- The objective key the comparison reads:
`'eval' if config.maximize else 'loss'`. -/
def objKey (maximize : Bool) (t : TaskObj) : Score :=
  if maximize then t.eval else t.loss

/-- The local `test_current_obj` of `early_stopping` (`utils.py`, lines
153-156): for every task,
`obj[task][obj_key] * maximize < best_obj[task][obj_key] * maximize - tolerance`;
the per-evaluation decision is the conjunction (`.all()`). -/
def test_current_obj (maximize : Bool) (tolerance : ℚ) (obj best : Objective) : Bool :=
  (obj.zip best).all (fun p =>
    Score.lt ((objKey maximize p.1).mulSign (signOfMaximize maximize))
      (((objKey maximize p.2).mulSign (signOfMaximize maximize)).subQ tolerance))

/-- Modelled from the spec (claim side of refinement): a task improved iff
`sign(maximize) * new[task][key] > sign(maximize) * best[task][key] + tolerance`,
where `sign(maximize)` is `+1` when maximizing and `-1` when minimizing. -/
def improvedTaskSpec (maximize : Bool) (tolerance : ℚ) (new best : TaskObj) : Bool :=
  Score.lt (((objKey maximize best).mulSign (if maximize then 1 else -1)).addQ tolerance)
    ((objKey maximize new).mulSign (if maximize then 1 else -1))

/-! ### The early-stopping controller (`utils.py`, lines 67-178)

The generator is modelled as a function from an abstract model state `μ`, an
evaluation closure `evalFn` (the composed stop closures, fixed per run) and
the consumer's per-epoch training action `train` to the full trace of
observable events plus the final controller state.  The scheduler branchs
are those of `scheduler = None`, the configuration claims are about. -/

/-- The configuration slice `early_stopping` reads. -/
structure ESConfig where
  interval : ℕ
  patience : ℕ
  start : ℕ
  maxIter : ℕ
  maximize : Bool
  tolerance : ℚ
  restoreBest : Bool
  lrDecaySteps : ℕ
deriving Repr

/-- The mutable state of one `early_stopping` run: the live model, the best
snapshot (`best_state_dict`), the epoch counter, and the current and best
objective records. -/
structure ESState (μ : Type) where
  m : μ
  best : μ
  epoch : ℕ
  curObj : Objective
  bestObj : Objective
deriving Repr

/-- Observable events of an `early_stopping` run. -/
inductive ESEvent where
  | yld (epoch : ℕ) (obj : Objective)
  | boundary (improved : Bool) (pc : ℤ)
  | decay
  | finalizeDiverged
  | finalizeEnd
deriving DecidableEq, Repr

/-- The `finalize` closure (`utils.py`, lines 100-113): restore the best
snapshot into the live model iff `restore_best`. -/
def finalizeES {μ : Type} (cfg : ESConfig) (st : ESState μ) : ESState μ :=
  if cfg.restoreBest then { st with m := st.best } else st

/-- The `decay_lr` closure (`utils.py`, lines 95-98): restore the best
snapshot into the live model iff `restore_best`. -/
def decay_lr {μ : Type} (cfg : ESConfig) (st : ESState μ) : ESState μ :=
  if cfg.restoreBest then { st with m := st.best } else st

/-- The inner `for _ in range(interval)` of the epoch loop (`utils.py`,
lines 130-142): bump the epoch, finalize and stop if the current objective
has a non-finite value, otherwise yield `(epoch, current_objective)` and let
the consumer train for that epoch.  Returns the trace, the resulting state
and whether the generator returned (diverged). -/
def runInterval {μ : Type} (cfg : ESConfig) (train : ℕ → μ → μ) :
    ℕ → ESState μ → List ESEvent × ESState μ × Bool
  | 0, st => ([], st, false)
  | k + 1, st =>
    let st1 := { st with epoch := st.epoch + 1 }
    if objectiveDiverged st1.curObj then
      ([.finalizeDiverged], finalizeES cfg st1, true)
    else
      let st2 := { st1 with m := train st1.epoch st1.m }
      let r := runInterval cfg train k st2
      (.yld st1.epoch st1.curObj :: r.1, r.2)

/-- The evaluation boundary (`utils.py`, lines 144-171): recompute the
objective, and either snapshot the model as the new best and reset the
patience counter to `-1`, or increment the patience counter.  Returns the
new state, the new patience counter, and the improvement decision. -/
def runBoundary {μ : Type} (cfg : ESConfig) (evalFn : μ → Objective)
    (st : ESState μ) (pc : ℤ) : ESState μ × ℤ × Bool :=
  let cur := evalFn st.m
  if test_current_obj cfg.maximize cfg.tolerance cur st.bestObj then
    ({ st with curObj := cur, best := st.m, bestObj := cur }, -1, true)
  else
    ({ st with curObj := cur }, pc + 1, false)

/-- The `while patience_counter < patience and epoch < max_iter` loop
(`utils.py`, lines 128-171), fuel-indexed; with `interval ≥ 1` a fuel of
`max_iter + 1` can never run out.  Returns the trace, the state, the
patience counter, and whether the generator returned (diverged). -/
def runWhile {μ : Type} (cfg : ESConfig) (evalFn : μ → Objective) (train : ℕ → μ → μ) :
    ℕ → ℤ → ESState μ → List ESEvent × ESState μ × ℤ × Bool
  | 0, pc, st => ([], st, pc, false)
  | fuel + 1, pc, st =>
    if pc < (cfg.patience : ℤ) ∧ st.epoch < cfg.maxIter then
      let r1 := runInterval cfg train cfg.interval st
      if r1.2.2 then (r1.1, r1.2.1, pc, true)
      else
        let rb := runBoundary cfg evalFn r1.2.1 pc
        let r2 := runWhile cfg evalFn train fuel rb.2.1 rb.1
        (r1.1 ++ .boundary rb.2.2 rb.2.1 :: r2.1, r2.2)
    else ([], st, pc, false)

/-- The end-of-stage condition of `utils.py`, line 173:
`(epoch < max_iter) & (lr_decay_steps > 1) & (repeat < lr_decay_steps)`. -/
def decayCond (cfg : ESConfig) (epoch rep : ℕ) : Bool :=
  decide (epoch < cfg.maxIter) && decide (1 < cfg.lrDecaySteps) &&
    decide (rep < cfg.lrDecaySteps)

/-- The outer `for repeat in range(lr_decay_steps)` loop (`utils.py`, lines
125-176): run one decay stage with `patience_counter = -1`, then restore via
`decay_lr` when the end-of-stage condition holds.  Returns the trace, the
state and whether the generator returned early (diverged). -/
def runStages {μ : Type} (cfg : ESConfig) (evalFn : μ → Objective) (train : ℕ → μ → μ) :
    ℕ → ℕ → ESState μ → List ESEvent × ESState μ × Bool
  | 0, _, st => ([], st, false)
  | rem + 1, rep, st =>
    let r1 := runWhile cfg evalFn train (cfg.maxIter + 1) (-1) st
    if r1.2.2.2 then (r1.1, r1.2.1, true)
    else if decayCond cfg r1.2.1.epoch rep then
      let r2 := runStages cfg evalFn train rem (rep + 1) (decay_lr cfg r1.2.1)
      (r1.1 ++ .decay :: r2.1, r2.2)
    else
      let r2 := runStages cfg evalFn train rem (rep + 1) r1.2.1
      (r1.1 ++ r2.1, r2.2)

/-- The whole `early_stopping` generator (`utils.py`, lines 67-178) for a
run without a scheduler: initialize `best_objective = current_objective`
from a first evaluation, snapshot the model, run the decay stages and
finalize unless the run already returned through the divergence check. -/
def early_stopping {μ : Type} (cfg : ESConfig) (evalFn : μ → Objective)
    (train : ℕ → μ → μ) (m0 : μ) : List ESEvent × ESState μ :=
  let cur := evalFn m0
  let st0 : ESState μ := ⟨m0, m0, cfg.start, cur, cur⟩
  let r := runStages cfg evalFn train cfg.lrDecaySteps 0 st0
  if r.2.2 then (r.1, r.2.1) else (r.1 ++ [.finalizeEnd], finalizeES cfg r.2.1)

/-! ### The `_objective` closure and mode switching (`utils.py`, lines 84-93)

The model's `training` flag is a `Bool` (`true` = train mode).  The
evaluation closure sees the flag the model is in and may raise, modelled by
`Except`.  `training_status` is the flag captured when the generator
started.  There is no `try/finally` in the source: the restoring
`model.train(training_status)` only runs when the closure returns. -/

/-- The `_objective` closure: `model.eval()` when `switch_mode`, run the
closure, then `model.train(training_status)` when `switch_mode`.  Returns
the closure's outcome together with the model's final `training` flag. -/
def objectiveWithMode {ε : Type} (switch_mode training_status : Bool)
    (closure : Bool → Except ε Objective) (mode : Bool) :
    Except ε Objective × Bool :=
  let mode1 := if switch_mode then false else mode
  match closure mode1 with
  | .error e => (.error e, mode1)
  | .ok r => (.ok r, if switch_mode then training_status else mode1)

/-! ### Lottery-ticket pruning (`lottery_ticket_pruning.py`)

A parameter tensor is a flat list of rationals; a mask is a 0/1-valued
tensor of the same shape.  The prunable parameters of the model are the
`(tensor, mask)` pairs, in `named_parameters` order. -/

/-- Linear-interpolation percentile, as `np.percentile(xs, percent)` with
the default interpolation: sort, take position `percent / 100 * (n - 1)`,
and interpolate between the two neighbouring order statistics. -/
def npPercentile (xs : List ℚ) (percent : ℚ) : ℚ :=
  let sorted := xs.mergeSort (fun a b => a ≤ b)
  let n := sorted.length
  let pos : ℚ := percent / 100 * ((n : ℚ) - 1)
  let lo : ℕ := (Rat.floor pos).toNat
  let frac : ℚ := pos - (lo : ℚ)
  sorted.getD lo 0 + frac * (sorted.getD (min (lo + 1) (n - 1)) 0 - sorted.getD lo 0)

/-- The alive values of one prunable tensor:
`param.data[torch.nonzero(mask)]`. -/
def aliveValues (layer : List ℚ × List ℚ) : List ℚ :=
  (layer.1.zip layer.2).filterMap (fun e => if e.2 ≠ 0 then some e.1 else none)

/-- One tensor's pruning step (`lottery_ticket_pruning.py`, lines 117-127):
`new_mask = where(|param| < percentile_value, 0, mask)`, then
`param = param * new_mask`.  Returns the new `(param, mask)` pair. -/
def pruneTensor (percentile_value : ℚ) (layer : List ℚ × List ℚ) : List ℚ × List ℚ :=
  let newMask := (layer.1.zip layer.2).map (fun e => if |e.1| < percentile_value then 0 else e.2)
  ((layer.1.zip newMask).map (fun e => e.1 * e.2), newMask)

/-- `LotteryTicketPruning.prune_by_percentile` over the prunable
`(param, mask)` pairs: one global percentile over the concatenated alive
magnitudes, or an independent per-tensor percentile. -/
def prune_by_percentile (global_pruning : Bool) (percent : ℚ)
    (layers : List (List ℚ × List ℚ)) : List (List ℚ × List ℚ) :=
  let globalPv := npPercentile ((layers.flatMap aliveValues).map (fun q => |q|)) percent
  layers.map (fun layer =>
    let pv := if global_pruning then globalPv
      else npPercentile ((aliveValues layer).map (fun q => |q|)) percent
    pruneTensor pv layer)

/-- Substring test, Python's `pat in s`. -/
def strContains (s pat : String) : Bool :=
  decide (pat.data <:+: s.data)

/-- Whether a named parameter is prunable:
`"weight" in name and readout_name not in name`. -/
def isPrunable (readout_name name : String) : Bool :=
  strContains name "weight" && !(strContains name readout_name)

/-- The loop of `LotteryTicketPruning.reset_initialization`
(`lottery_ticket_pruning.py`, lines 152-159), with `step` the running index
into the mask list: prunable parameters get `mask[step] * init`, parameters
whose name contains `"bias"` or `"weight"` get `init`, and all other
parameters are left untouched (`init` is the current value when `reinit`,
else the saved initial state dict entry). -/
def resetGo (readout_name : String) (reinit : Bool) (initSD : String → List ℚ)
    (mask : List (List ℚ)) : ℕ → List (String × List ℚ) → List (String × List ℚ)
  | _, [] => []
  | step, (name, p) :: rest =>
    let init := if reinit then p else initSD name
    if isPrunable readout_name name then
      (name, (mask.getD step []).zipWith (· * ·) init) ::
        resetGo readout_name reinit initSD mask (step + 1) rest
    else if strContains name "bias" || strContains name "weight" then
      (name, init) :: resetGo readout_name reinit initSD mask step rest
    else
      (name, p) :: resetGo readout_name reinit initSD mask step rest

/-- `LotteryTicketPruning.reset_initialization` on the full
`named_parameters` list (when `reinit` the parameter values passed in are
the freshly reinitialized ones produced by `model.apply(weight_reset)`). -/
def reset_initialization (readout_name : String) (reinit : Bool)
    (initSD : String → List ℚ) (mask : List (List ℚ))
    (params : List (String × List ℚ)) : List (String × List ℚ) :=
  resetGo readout_name reinit initSD mask 0 params

/-- Closed form of one entry of `reset_initialization`: what happens to the
parameter `q` when `idx` prunable parameters precede it. -/
def resetEntrySpec (readout_name : String) (reinit : Bool) (initSD : String → List ℚ)
    (mask : List (List ℚ)) (idx : ℕ) (q : String × List ℚ) : String × List ℚ :=
  let init := if reinit then q.2 else initSD q.1
  if isPrunable readout_name q.1 then
    (q.1, (mask.getD idx []).zipWith (· * ·) init)
  else if strContains q.1 "bias" || strContains q.1 "weight" then
    (q.1, init)
  else
    (q.1, q.2)

/-- The per-round pruning percentage of `LotteryTicketPruning.__init__`
(`lottery_ticket_pruning.py`, lines 27-29):
`(1 - (1 - percent_to_prune / 100) ** (1 / n_rounds)) * 100`. -/
noncomputable def percentPerRound (percent_to_prune : ℝ) (n_rounds : ℕ) : ℝ :=
  (1 - (1 - percent_to_prune / 100) ^ ((1 : ℝ) / (n_rounds : ℝ))) * 100

/-- Whether an event is an evaluation-boundary event. -/
def isBoundaryEv : ESEvent → Bool
  | .boundary _ _ => true
  | _ => false

/-- Whether an event is a yield of an epoch. -/
def isYieldEv : ESEvent → Bool
  | .yld _ _ => true
  | _ => false

/-- Canonical cursor value of loader `i` after the first `t` round-robin
steps over `n` loaders: the number of steps `s < t` with `s % n = i`. -/
def canonCnt (n t i : ℕ) : ℕ :=
  t / n + if i < t % n then 1 else 0

/-! ### Concrete instances used by examples and witnesses -/

/-- Consumer that just counts training epochs: the model state is the
number of epochs trained so far. -/
def trainCount : ℕ → ℕ → ℕ := fun _ m => m + 1

/-- The eval sequence `[0.5, 0.51, 0.505, 0.6]` of the spec's early-stopping
example, indexed by the number of epochs trained. -/
def evalSeqSpec : ℕ → ℚ := fun n => [(1 : ℚ) / 2, 51 / 100, 101 / 200, 3 / 5].getD n (3 / 5)

/-- A single-task evaluation closure producing the spec's eval sequence
(loss held at a finite constant). -/
def evalFnSpec : ℕ → Objective := fun n => [⟨Score.fin (evalSeqSpec n), Score.fin 0⟩]

/-- The configuration of the spec's early-stopping example:
`maximize = True, tolerance = 0.01, patience = 2, interval = 1`, one decay
stage, a budget of exactly the 3 trained epochs. -/
def cfgSpecExample : ESConfig :=
  { interval := 1, patience := 2, start := 0, maxIter := 3, maximize := true,
    tolerance := 1 / 100, restoreBest := true, lrDecaySteps := 2 - 1 }

/-- A configuration with two decay stages and zero patience, used to
exercise the end-of-stage restore condition. -/
def cfgTwoStages : ESConfig :=
  { interval := 1, patience := 0, start := 0, maxIter := 100, maximize := true,
    tolerance := 1 / 100, restoreBest := true, lrDecaySteps := 2 }

/-- A flat single-task evaluation closure (never improves by more than the
tolerance). -/
def evalFnFlat : ℕ → Objective := fun _ => [⟨Score.fin 0, Score.fin 0⟩]

/-- A configuration whose interval (3) exceeds its remaining epoch budget
(`max_iter = 1`), used to exhibit the maximal overshoot. -/
def cfgOvershoot : ESConfig :=
  { interval := 3, patience := 5, start := 0, maxIter := 1, maximize := true,
    tolerance := 1 / 100, restoreBest := true, lrDecaySteps := 1 }

/-- A single-task evaluation closure whose eval is always NaN. -/
def evalFnNaN : ℕ → Objective := fun _ => [⟨Score.nan, Score.fin 0⟩]

/-- A controller state whose current objective record contains a NaN eval
value. -/
def divergedSt : ESState ℕ :=
  ⟨5, 7, 0, [⟨Score.nan, Score.fin 0⟩], [⟨Score.fin 0, Score.fin 0⟩]⟩

/-- A small configuration for exercising the divergence branch. -/
def cfgDiv : ESConfig :=
  { interval := 1, patience := 2, start := 0, maxIter := 10, maximize := true,
    tolerance := 1 / 100, restoreBest := true, lrDecaySteps := 1 }

/-! ## Theorems -/

/-! ### Round-robin cursor arithmetic -/

theorem succ_divmod (n t : ℕ) (hn : 0 < n) :
    ((t + 1) % n = if t % n + 1 = n then 0 else t % n + 1) ∧
    ((t + 1) / n = if t % n + 1 = n then t / n + 1 else t / n) := by
  rcases Nat.lt_or_ge (t % n + 1) n with h | h
  · have hne : ¬(t % n + 1 = n) := by omega
    refine ⟨?_, ?_⟩
    · rw [if_neg hne]
      conv_lhs => rw [← Nat.div_add_mod t n]
      rw [Nat.add_assoc, Nat.mul_add_mod, Nat.mod_eq_of_lt h]
    · rw [if_neg hne]
      conv_lhs => rw [← Nat.div_add_mod t n]
      rw [Nat.add_assoc, Nat.mul_add_div hn, Nat.div_eq_of_lt h, Nat.add_zero]
  · have hmod := Nat.mod_lt t hn
    have heq : t % n + 1 = n := by omega
    have ht : t + 1 = n * (t / n + 1) := by
      conv_lhs => rw [← Nat.div_add_mod t n]
      rw [Nat.mul_add, Nat.mul_one]
      omega
    refine ⟨?_, ?_⟩
    · rw [if_pos heq, ht]
      exact Nat.mul_mod_right _ _
    · rw [if_pos heq, ht]
      exact Nat.mul_div_cancel_left _ hn

theorem counters_step (n t : ℕ) (hn : 0 < n) (counters : ℕ → ℕ)
    (hc : ∀ i, i < n → counters i = canonCnt n t i) :
    ∀ i, i < n → fupd counters (t % n) (counters (t % n) + 1) i = canonCnt n (t + 1) i := by
  intro i hi
  have hm := Nat.mod_lt t hn
  have h1 := (succ_divmod n t hn).1
  have h2 := (succ_divmod n t hn).2
  unfold fupd canonCnt
  by_cases ht : t % n + 1 = n
  · rw [if_pos ht] at h1 h2
    rw [h1, h2, if_neg (Nat.not_lt_zero i)]
    by_cases hit : i = t % n
    · rw [if_pos hit, hc _ hm, canonCnt, if_neg (Nat.lt_irrefl _)]
      try omega
    · rw [if_neg hit, hc _ hi, canonCnt, if_pos (by omega : i < t % n)]
      try omega
  · rw [if_neg ht] at h1 h2
    rw [h1, h2]
    by_cases hit : i = t % n
    · rw [if_pos hit, hc _ hm, canonCnt, if_neg (Nat.lt_irrefl _),
        if_pos (by omega : i < t % n + 1)]
      try omega
    · rw [if_neg hit, hc _ hi, canonCnt]
      by_cases hlt : i < t % n
      · rw [if_pos hlt, if_pos (by omega : i < t % n + 1)]
      · rw [if_neg hlt, if_neg (by omega : ¬ i < t % n + 1)]

/-! ### `LongCycler` (claim C2) -/

theorem longCyclerSteps_eq {K β : Type} [Inhabited K] [Inhabited β]
    (loaders : List (K × List β)) (hnil : loaders ≠ [])
    (hne : ∀ p ∈ loaders, p.2 ≠ []) :
    ∀ (m t : ℕ) (counters : ℕ → ℕ),
      (∀ i, i < loaders.length → counters i = canonCnt loaders.length t i) →
      longCyclerSteps loaders counters t m =
        some ((List.range m).map (fun j => lcExpected loaders (t + j))) := by
  intro m
  induction m with
  | zero =>
    intro t counters _
    simp [longCyclerSteps]
  | succ m ih =>
    intro t counters hc
    have hn : 0 < loaders.length := List.length_pos.mpr hnil
    have hi : t % loaders.length < loaders.length := Nat.mod_lt t hn
    obtain ⟨p, hp⟩ : ∃ p, loaders.get? (t % loaders.length) = some p :=
      ⟨_, List.get?_eq_get hi⟩
    have hpd : loaders.getD (t % loaders.length) default = p := by
      rw [List.getD_eq_get?, hp]
      rfl
    have hpmem : p ∈ loaders := List.get?_mem hp
    have hplen : 0 < p.2.length := List.length_pos.mpr (hne p hpmem)
    have hblt : t / loaders.length % p.2.length < p.2.length := Nat.mod_lt _ hplen
    have hcv : counters (t % loaders.length) = t / loaders.length := by
      rw [hc _ hi, canonCnt, if_neg (Nat.lt_irrefl _)]
      omega
    have hcyc : cycNext p.2 (counters (t % loaders.length)) =
        some (p.2.getD (t / loaders.length % p.2.length) default) := by
      rw [cycNext, hcv, List.getD_eq_get?, List.get?_eq_get hblt]
      rfl
    have hhead : lcExpected loaders (t + 0) =
        (p.1, p.2.getD (t / loaders.length % p.2.length) default) := by
      simp only [lcExpected, Nat.add_zero, hpd]
    have htail : List.map ((fun j => lcExpected loaders (t + j)) ∘ Nat.succ) (List.range m)
        = List.map (fun j => lcExpected loaders (t + 1 + j)) (List.range m) := by
      apply List.map_congr_left
      intro j _
      simp only [Function.comp]
      congr 1
      omega
    obtain ⟨k, l⟩ := p
    simp only [longCyclerSteps, hp, hcyc]
    rw [ih (t + 1) _ (counters_step loaders.length t hn counters hc)]
    simp only [Option.map_some', List.range_succ_eq_map, List.map_cons, List.map_map, htail]
    rw [← hhead]

theorem countP_mod_range (n i : ℕ) (hi : i < n) :
    ∀ m, (List.range (n * m)).countP (fun t => t % n == i) = m := by
  intro m
  induction m with
  | zero => simp
  | succ m ih =>
    have hsplit : n * (m + 1) = n * m + n := by ring
    rw [hsplit, List.range_add, List.countP_append, ih, List.countP_map]
    have hcong : ∀ t ∈ List.range n,
        (((fun t => t % n == i) ∘ (n * m + ·)) t = true) ↔ ((fun t => t == i) t = true) := by
      intro t htm
      have htn : t < n := List.mem_range.mp htm
      simp [Function.comp, Nat.mul_add_mod, Nat.mod_eq_of_lt htn]
    rw [List.countP_congr hcong]
    have hcount : (List.range n).countP (fun t => t == i) = (List.range n).count i := rfl
    rw [hcount, List.count_eq_one_of_mem (List.nodup_range n) (List.mem_range.mpr hi)]

/-- Claim C2: over a non-empty map of non-empty keyed sources, `LongCycler`
yields exactly `number_of_sources * max_source_length` pairs; the keys
round-robin through the map's enumeration order (step `t` carries the key of
source `t % n` and, at round `r = t / n`, the `(r mod len)`-th batch of that
source, shorter sources cycling), and each key appears exactly
`max_source_length` times. -/
theorem longCycler_spec {K β : Type} [DecidableEq K] [Inhabited K] [Inhabited β]
    (loaders : List (K × List β)) (hnil : loaders ≠ [])
    (hne : ∀ p ∈ loaders, p.2 ≠ []) (hnd : (loaders.map Prod.fst).Nodup) :
    ∃ out, longCycler loaders = some out ∧
      out.length = loaders.length * maxBatches loaders ∧
      (∀ t, t < loaders.length * maxBatches loaders →
        out.get? t = some (lcExpected loaders t)) ∧
      (∀ p ∈ loaders, (out.map Prod.fst).count p.1 = maxBatches loaders) := by
  set n := loaders.length with hn
  set N := n * maxBatches loaders with hN
  have hrun : longCycler loaders =
      some ((List.range N).map (fun j => lcExpected loaders j)) := by
    have := longCyclerSteps_eq loaders hnil hne N 0 (fun _ => 0) (by
      intro i _
      rw [canonCnt, Nat.zero_div, Nat.zero_mod, if_neg (Nat.not_lt_zero i)])
    rw [longCycler, this]
    congr 1
    apply List.map_congr_left
    intro j _
    rw [Nat.zero_add]
  refine ⟨(List.range N).map (fun j => lcExpected loaders j), hrun, by simp, ?_, ?_⟩
  · intro t ht
    rw [List.get?_map, List.get?_range ht]
    rfl
  · intro p hp
    obtain ⟨⟨i, hilen⟩, hgi⟩ := List.mem_iff_get.mp hp
    have hin : i < n := hilen
    have hinj : ∀ (j1 j2 : ℕ) (h1 : j1 < n) (h2 : j2 < n),
        (loaders.get ⟨j1, h1⟩).1 = (loaders.get ⟨j2, h2⟩).1 → j1 = j2 := by
      intro j1 j2 h1 h2 hq
      have hm1 : j1 < (loaders.map Prod.fst).length := by simpa using h1
      have hm2 : j2 < (loaders.map Prod.fst).length := by simpa using h2
      have hg : (loaders.map Prod.fst).get ⟨j1, hm1⟩ = (loaders.map Prod.fst).get ⟨j2, hm2⟩ := by
        rw [List.get_map, List.get_map]
        exact hq
      have := (List.Nodup.get_inj_iff hnd).mp hg
      simpa using congrArg Fin.val this
    have hfst : ∀ t : ℕ,
        ((loaders.getD (t % n) default).1 == p.1) = (t % n == i) := by
      intro t
      have hmt : t % n < n := Nat.mod_lt t (Nat.lt_of_le_of_lt (Nat.zero_le i) hin)
      have hgd : loaders.getD (t % n) default = loaders.get ⟨t % n, hmt⟩ := by
        rw [List.getD_eq_get?, List.get?_eq_get hmt]
        rfl
      rw [hgd]
      by_cases he : t % n = i
      · subst he
        rw [hgi]
        simp
      · have hne2 : (loaders.get ⟨t % n, hmt⟩).1 ≠ p.1 := by
          intro hcontra
          exact he (hinj _ _ hmt hin (hcontra.trans (congrArg Prod.fst hgi.symm)))
        rw [beq_eq_false_iff_ne.mpr hne2, beq_eq_false_iff_ne.mpr he]
    have hmapfst : ((List.range N).map (fun j => lcExpected loaders j)).map Prod.fst
        = (List.range N).map (fun t => (loaders.getD (t % n) default).1) := by
      rw [List.map_map]
      apply List.map_congr_left
      intro t _
      rfl
    rw [hmapfst, List.count_eq_countP, List.countP_map]
    have hcong : ∀ t ∈ List.range N,
        ((((fun x => x == p.1) ∘ fun t => (loaders.getD (t % n) default).1) t) = true) ↔
          ((fun t => t % n == i) t = true) := by
      intro t _
      simp only [Function.comp]
      rw [hfst t]
    rw [List.countP_congr hcong, hN]
    exact countP_mod_range n i hin (maxBatches loaders)

/-- Witness for C2 at the spec's example of source lengths `[3, 7, 2]`. -/
theorem longCycler_spec_witness :
    ∃ out,
      longCycler [(0, [10, 11, 12]), (1, [20, 21, 22, 23, 24, 25, 26]), (2, [30, 31])]
        = some out ∧
      out.length = 3 * maxBatches
        [(0, [10, 11, 12]), (1, [20, 21, 22, 23, 24, 25, 26]), (2, [30, 31])] ∧
      (∀ t, t < 3 * maxBatches
          [(0, [10, 11, 12]), (1, [20, 21, 22, 23, 24, 25, 26]), (2, [30, 31])] →
        out.get? t = some (lcExpected
          [(0, [10, 11, 12]), (1, [20, 21, 22, 23, 24, 25, 26]), (2, [30, 31])] t)) ∧
      (∀ p ∈ [(0, [10, 11, 12]), (1, [20, 21, 22, 23, 24, 25, 26]), (2, [30, 31])],
        (out.map Prod.fst).count p.1 = maxBatches
          [(0, [10, 11, 12]), (1, [20, 21, 22, 23, 24, 25, 26]), (2, [30, 31])]) := by
  exact longCycler_spec
    [((0 : ℕ), [(10 : ℕ), 11, 12]), (1, [20, 21, 22, 23, 24, 25, 26]), (2, [30, 31])]
    (by decide) (by decide) (by decide)

/-! ### `MTL_Cycler` (claim C3) -/

theorem mtlInner_eq {K β : Type} [Inhabited K] [Inhabited β]
    (others : List (K × List β)) (hnil : others ≠ [])
    (hne : ∀ p ∈ others, p.2 ≠ []) :
    ∀ (s dp : ℕ) (oc : ℕ → ℕ),
      (∀ i, i < others.length → oc i = canonCnt others.length dp i) →
      ∃ oc2, mtlInner others oc dp s =
          some ((List.range s).map (fun j => lcExpected others (dp + j)), dp + s, oc2) ∧
        (∀ i, i < others.length → oc2 i = canonCnt others.length (dp + s) i) := by
  intro s
  induction s with
  | zero =>
    intro dp oc hc
    exact ⟨oc, by simp [mtlInner], by simpa using hc⟩
  | succ s ih =>
    intro dp oc hc
    have hn : 0 < others.length := List.length_pos.mpr hnil
    have hi : dp % others.length < others.length := Nat.mod_lt dp hn
    obtain ⟨p, hp⟩ : ∃ p, others.get? (dp % others.length) = some p :=
      ⟨_, List.get?_eq_get hi⟩
    have hpd : others.getD (dp % others.length) default = p := by
      rw [List.getD_eq_get?, hp]
      rfl
    have hpmem : p ∈ others := List.get?_mem hp
    have hplen : 0 < p.2.length := List.length_pos.mpr (hne p hpmem)
    have hblt : dp / others.length % p.2.length < p.2.length := Nat.mod_lt _ hplen
    have hcv : oc (dp % others.length) = dp / others.length := by
      rw [hc _ hi, canonCnt, if_neg (Nat.lt_irrefl _)]
      omega
    have hcyc : cycNext p.2 (oc (dp % others.length)) =
        some (p.2.getD (dp / others.length % p.2.length) default) := by
      rw [cycNext, hcv, List.getD_eq_get?, List.get?_eq_get hblt]
      rfl
    have hhead : lcExpected others (dp + 0) =
        (p.1, p.2.getD (dp / others.length % p.2.length) default) := by
      simp only [lcExpected, Nat.add_zero, hpd]
    have htail : List.map ((fun j => lcExpected others (dp + j)) ∘ Nat.succ) (List.range s)
        = List.map (fun j => lcExpected others (dp + 1 + j)) (List.range s) := by
      apply List.map_congr_left
      intro j _
      simp only [Function.comp]
      congr 1
      omega
    obtain ⟨oc2, heq, hc2⟩ :=
      ih (dp + 1) _ (counters_step others.length dp hn oc hc)
    refine ⟨oc2, ?_, ?_⟩
    · obtain ⟨k, l⟩ := p
      simp only [mtlInner, hp, hcyc, heq, Option.map_some']
      simp only [List.range_succ_eq_map, List.map_cons, List.map_map, htail]
      rw [← hhead]
      have harith : dp + 1 + s = dp + (s + 1) := by omega
      rw [harith]
    · intro i hilt
      rw [hc2 i hilt]
      congr 1
      omega

theorem mtlOuter_eq {K β : Type} [Inhabited K] [Inhabited β]
    (mainKey : K) (main : List β) (others : List (K × List β)) (ratio : ℕ)
    (hnil : others ≠ []) (hne : ∀ p ∈ others, p.2 ≠ []) :
    ∀ (rem mp : ℕ) (oc : ℕ → ℕ),
      mp + rem = main.length →
      (∀ i, i < others.length → oc i = canonCnt others.length (mp * ratio) i) →
      mtlOuter mainKey main others ratio mp oc (mp * ratio) rem =
        some ((List.range rem).flatMap
          (fun i => mtlBlock mainKey main others ratio (mp + i))) := by
  intro rem
  induction rem with
  | zero =>
    intro mp oc _ _
    simp [mtlOuter]
  | succ rem ih =>
    intro mp oc hlen hc
    have hmp : mp < main.length := by omega
    have hmain : cycNext main mp = some (main.getD mp default) := by
      rw [cycNext, Nat.mod_eq_of_lt hmp, List.getD_eq_get?, List.get?_eq_get hmp]
      rfl
    obtain ⟨oc2, heq, hc2⟩ := mtlInner_eq others hnil hne ratio (mp * ratio) oc hc
    have harith : mp * ratio + ratio = (mp + 1) * ratio := by ring
    have hstep := ih (mp + 1) oc2 (by omega) (by
      intro i hilt
      rw [hc2 i hilt, harith])
    rw [harith] at heq
    simp only [mtlOuter, hmain, heq, hstep, Option.map_some']
    simp only [List.range_succ_eq_map, List.flatMap_def, List.map_cons, List.flatten_cons,
      List.map_map]
    have htail3 : List.map ((fun i => mtlBlock mainKey main others ratio (mp + i)) ∘ Nat.succ)
          (List.range rem)
        = List.map (fun i => mtlBlock mainKey main others ratio (mp + 1 + i))
          (List.range rem) := by
      apply List.map_congr_left
      intro j _
      simp only [Function.comp]
      congr 1
      omega
    have hhd2 : mtlBlock mainKey main others ratio (mp + 0) =
        (mainKey, main.getD mp default) ::
          List.map (fun s => lcExpected others (mp * ratio + s)) (List.range ratio) := by
      simp only [mtlBlock, Nat.add_zero]
    rw [htail3, hhd2]

/-- Claim C3 (amended): for a source map containing the main key whose
non-main sources are all non-empty (and at least one exists), `MTL_Cycler`
yields exactly `len(main_source) * (ratio + 1)` pairs, as the concatenation
of one block per main batch: the `i`-th block is the `i`-th main batch (the
main source is traversed exactly once, in order, never restarted) followed
by `ratio` pairs drawn round-robin from the non-main sources. -/
theorem mtlCycler_spec {K β : Type} [DecidableEq K] [Inhabited K] [Inhabited β]
    (loaders : List (K × List β)) (mainKey : K) (ratio : ℕ) (main : List β)
    (hmain : loaders.lookup mainKey = some main)
    (hothers : loaders.filter (fun p => !(p.1 == mainKey)) ≠ [])
    (hne : ∀ p ∈ loaders.filter (fun p => !(p.1 == mainKey)), p.2 ≠ []) :
    ∃ out, mtlCycler loaders mainKey ratio = some out ∧
      out.length = mtlNumBatches main ratio ∧
      out = (List.range main.length).flatMap
        (fun i => mtlBlock mainKey main
          (loaders.filter (fun p => !(p.1 == mainKey))) ratio i) := by
  set others := loaders.filter (fun p => !(p.1 == mainKey)) with hodef
  have hrun := mtlOuter_eq mainKey main others ratio hothers hne main.length 0
    (fun _ => 0) (by omega) (by
      intro i _
      rw [canonCnt, Nat.zero_mul, Nat.zero_div, Nat.zero_mod,
        if_neg (Nat.not_lt_zero i)])
  rw [Nat.zero_mul] at hrun
  have hblocks : (List.range main.length).flatMap
        (fun i => mtlBlock mainKey main others ratio (0 + i))
      = (List.range main.length).flatMap
        (fun i => mtlBlock mainKey main others ratio i) := by
    rw [List.flatMap_def, List.flatMap_def]
    congr 1
    apply List.map_congr_left
    intro i _
    rw [Nat.zero_add]
  rw [hblocks] at hrun
  refine ⟨_, ?_, ?_, rfl⟩
  · simp only [mtlCycler, hmain]
    exact hrun
  · rw [List.flatMap_def, List.length_flatten, List.map_map]
    have hlens : List.map (List.length ∘ fun i => mtlBlock mainKey main others ratio i)
          (List.range main.length)
        = List.map (fun _ => ratio + 1) (List.range main.length) := by
      apply List.map_congr_left
      intro i _
      simp [mtlBlock]
    rw [hlens, List.map_const', List.sum_replicate, List.length_range, smul_eq_mul,
      mtlNumBatches]

/-- Counterexample to claim C3 as stated: a source map whose main source is
non-empty and which has a non-empty non-main source, but also an empty
non-main source; the iteration crashes (`next` on an empty cycle) instead of
yielding `len(main) * (ratio + 1)` pairs. -/
theorem mtlCycler_counterexample :
    mtlCycler [((0 : ℕ), [(100 : ℕ)]), (1, [20]), (2, [])] 0 2 = none ∧
      ¬∃ out, mtlCycler [((0 : ℕ), [(100 : ℕ)]), (1, [20]), (2, [])] 0 2 = some out ∧
        out.length = mtlNumBatches [(100 : ℕ)] 2 := by
  have h : mtlCycler [((0 : ℕ), [(100 : ℕ)]), (1, [20]), (2, [])] 0 2 = none := by rfl
  refine ⟨h, ?_⟩
  rintro ⟨out, hout, -⟩
  rw [h] at hout
  cases hout

/-- Witness for the amended C3 on the concrete map
`{0 ↦ [100, 101] (main), 1 ↦ [20], 2 ↦ [30, 31, 32]}` with `ratio = 2`. -/
theorem mtlCycler_spec_witness :
    ∃ out, mtlCycler [((0 : ℕ), [(100 : ℕ), 101]), (1, [20]), (2, [30, 31, 32])] 0 2
        = some out ∧
      out.length = mtlNumBatches [(100 : ℕ), 101] 2 ∧
      out = (List.range ([(100 : ℕ), 101].length)).flatMap
        (fun i => mtlBlock 0 [(100 : ℕ), 101]
          ([((0 : ℕ), [(100 : ℕ), 101]), (1, [20]), (2, [30, 31, 32])].filter
            (fun p => !(p.1 == 0))) 2 i) := by
  exact mtlCycler_spec [((0 : ℕ), [(100 : ℕ), 101]), (1, [20]), (2, [30, 31, 32])] 0 2
    [(100 : ℕ), 101] (by rfl) (by decide) (by decide)

/-! ### Early stopping: the improvement comparison (claim C1) -/

theorem score_flip_max (a b : Score) (t : ℚ) :
    Score.lt (a.mulSign (-1)) ((b.mulSign (-1)).subQ t)
      = Score.lt ((b.mulSign 1).addQ t) (a.mulSign 1) := by
  have h1 : ∀ z : Score, z.mulSign 1 = z := by
    intro z
    rw [Score.mulSign, if_neg (by norm_num : ¬(1 : ℤ) < 0)]
  rw [h1, h1]
  have hm : ∀ z : Score, z.mulSign (-1) = z.neg := by
    intro z
    rw [Score.mulSign, if_pos (by norm_num : (-1 : ℤ) < 0)]
  rw [hm, hm]
  cases a <;> cases b <;>
    simp only [Score.subQ, Score.addQ, Score.lt, Score.neg] <;>
    first
      | rfl
      | exact decide_eq_decide.mpr (by constructor <;> intro h <;> linarith)

theorem score_flip_min (a b : Score) (t : ℚ) :
    Score.lt (a.mulSign 1) ((b.mulSign 1).subQ t)
      = Score.lt ((b.mulSign (-1)).addQ t) (a.mulSign (-1)) := by
  have h1 : ∀ z : Score, z.mulSign 1 = z := by
    intro z
    rw [Score.mulSign, if_neg (by norm_num : ¬(1 : ℤ) < 0)]
  rw [h1, h1]
  have hm : ∀ z : Score, z.mulSign (-1) = z.neg := by
    intro z
    rw [Score.mulSign, if_pos (by norm_num : (-1 : ℤ) < 0)]
  rw [hm, hm]
  cases a <;> cases b <;>
    simp only [Score.subQ, Score.addQ, Score.lt, Score.neg] <;>
    first
      | rfl
      | exact decide_eq_decide.mpr (by constructor <;> intro h <;> linarith)

theorem test_current_obj_pointwise (maximize : Bool) (tol : ℚ) (o b : TaskObj) :
    Score.lt ((objKey maximize o).mulSign (signOfMaximize maximize))
        (((objKey maximize b).mulSign (signOfMaximize maximize)).subQ tol)
      = improvedTaskSpec maximize tol o b := by
  cases maximize
  · simp only [signOfMaximize, improvedTaskSpec, Bool.false_eq_true, if_false]
    exact score_flip_min (objKey false o) (objKey false b) tol
  · simp only [signOfMaximize, improvedTaskSpec, if_true]
    exact score_flip_max (objKey true o) (objKey true b) tol

/-- Claim C1: (i) the code's per-task comparison
`new * sign < best * sign - tolerance` (with sign `-1` when maximizing) is
exactly the spec's `sign(maximize) * new[key] > sign(maximize) * best[key] + tolerance`
with `key = eval` when maximizing and `loss` when minimizing; (ii) at an
evaluation boundary the model is snapshotted as the new best and the
patience counter reset to `-1` iff every task improved, else the counter is
incremented; (iii) on the spec's example
(`maximize, tolerance = 0.01, patience = 2, interval = 1`, evals
`[0.5, 0.51, 0.505, 0.6]`) the best objective after the four evaluations is
`0.6` and the patience counter never reaches `2`. -/
theorem early_stopping_improvement_spec :
    (∀ (maximize : Bool) (tol : ℚ) (o b : Objective),
      test_current_obj maximize tol o b
        = (o.zip b).all (fun p => improvedTaskSpec maximize tol p.1 p.2)) ∧
    (∀ (cfg : ESConfig) (evalFn : ℕ → Objective) (st : ESState ℕ) (pc : ℤ),
      runBoundary cfg evalFn st pc
        = if ((evalFn st.m).zip st.bestObj).all
              (fun p => improvedTaskSpec cfg.maximize cfg.tolerance p.1 p.2) then
            ({ st with curObj := evalFn st.m, best := st.m, bestObj := evalFn st.m }, -1, true)
          else
            ({ st with curObj := evalFn st.m }, pc + 1, false)) ∧
    ((early_stopping cfgSpecExample evalFnSpec trainCount 0).2.bestObj
        = [⟨Score.fin (3 / 5), Score.fin 0⟩] ∧
      (early_stopping cfgSpecExample evalFnSpec trainCount 0).1.filter isBoundaryEv
        = [.boundary false 0, .boundary false 1, .boundary true (-1)]) := by
  have hptw : ∀ (maximize : Bool) (tol : ℚ) (o b : Objective),
      test_current_obj maximize tol o b
        = (o.zip b).all (fun p => improvedTaskSpec maximize tol p.1 p.2) := by
    intro maximize tol o b
    rw [test_current_obj]
    congr 1
    funext p
    exact test_current_obj_pointwise maximize tol p.1 p.2
  refine ⟨hptw, ?_, by with_unfolding_all decide, by with_unfolding_all decide⟩
  intro cfg evalFn st pc
  rw [runBoundary, hptw]

/-! ### Early stopping: the end-of-stage restore condition (claim C7) -/

/-- Counterexample to claim C7 as stated: with two decay stages, zero
patience and ample epoch budget, the end-of-stage restore (`decay_lr`) also
runs at the end of the final decay stage, after which no further stage
remains — the trace contains two `decay` events, not one. -/
theorem decay_last_stage_counterexample :
    cfgTwoStages.lrDecaySteps = 2 ∧
    (early_stopping cfgTwoStages evalFnFlat trainCount 0).1.countP
        (fun e => e == ESEvent.decay) = 2 := by
  constructor
  · rfl
  · with_unfolding_all decide

/-- Claim C7 (amended): at every stage index the outer loop actually reaches
(`rep < lr_decay_steps`), the end-of-stage condition of `utils.py`, line 173
is equivalent to `epoch < max_iter ∧ lr_decay_steps > 1`: its
`repeat < lr_decay_steps` conjunct is always true, so with `restore_best`
the best snapshot is restored at the end of every decay stage with epoch
budget remaining whenever more than one decay stage is configured —
including the final one. -/
theorem decayCond_spec (cfg : ESConfig) (epoch rep : ℕ)
    (hrep : rep < cfg.lrDecaySteps) :
    decayCond cfg epoch rep
      = (decide (epoch < cfg.maxIter) && decide (1 < cfg.lrDecaySteps)) := by
  rw [decayCond, decide_eq_true hrep, Bool.and_true]

/-- Witness for the amended C7 at the final stage index (`rep = 1`) of a
two-stage configuration. -/
theorem decayCond_spec_witness :
    1 < cfgTwoStages.lrDecaySteps ∧
    decayCond cfgTwoStages 5 1
      = (decide (5 < cfgTwoStages.maxIter) && decide (1 < cfgTwoStages.lrDecaySteps)) :=
  ⟨by decide, decayCond_spec cfgTwoStages 5 1 (by decide)⟩

/-! ### Early stopping: structure of the interval loop -/

theorem runInterval_diverged_eq {μ : Type} (cfg : ESConfig) (train : ℕ → μ → μ)
    (k : ℕ) (st : ESState μ) (hd : objectiveDiverged st.curObj = true) :
    runInterval cfg train (k + 1) st
      = ([ESEvent.finalizeDiverged], finalizeES cfg { st with epoch := st.epoch + 1 },
        true) := by
  simp [runInterval, hd]

theorem runInterval_step_eq {μ : Type} (cfg : ESConfig) (train : ℕ → μ → μ)
    (k : ℕ) (st : ESState μ) (hd : objectiveDiverged st.curObj = false) :
    runInterval cfg train (k + 1) st
      = (ESEvent.yld (st.epoch + 1) st.curObj ::
          (runInterval cfg train k
            { st with epoch := st.epoch + 1, m := train (st.epoch + 1) st.m }).1,
        (runInterval cfg train k
            { st with epoch := st.epoch + 1, m := train (st.epoch + 1) st.m }).2) := by
  simp [runInterval, hd]

theorem runInterval_yld_bound {μ : Type} (cfg : ESConfig) (train : ℕ → μ → μ) :
    ∀ (k : ℕ) (st : ESState μ) (e : ℕ) (o : Objective),
      ESEvent.yld e o ∈ (runInterval cfg train k st).1 →
      st.epoch < e ∧ e ≤ st.epoch + k := by
  intro k
  induction k with
  | zero =>
    intro st e o h
    simp [runInterval] at h
  | succ k ih =>
    intro st e o h
    by_cases hd : objectiveDiverged st.curObj = true
    · rw [runInterval_diverged_eq cfg train k st hd] at h
      simp at h
    · rw [Bool.not_eq_true] at hd
      rw [runInterval_step_eq cfg train k st hd] at h
      rcases List.mem_cons.mp h with heq | hmem
      · simp only [ESEvent.yld.injEq] at heq
        omega
      · have hb := ih _ e o hmem
        simp only at hb
        omega

theorem runWhile_yld_bound {μ : Type} (cfg : ESConfig) (evalFn : μ → Objective)
    (train : ℕ → μ → μ) :
    ∀ (fuel : ℕ) (pc : ℤ) (st : ESState μ) (e : ℕ) (o : Objective),
      ESEvent.yld e o ∈ (runWhile cfg evalFn train fuel pc st).1 →
      e < cfg.maxIter + cfg.interval := by
  intro fuel
  induction fuel with
  | zero =>
    intro pc st e o h
    simp [runWhile] at h
  | succ fuel ih =>
    intro pc st e o h
    simp only [runWhile] at h
    by_cases hg : pc < (cfg.patience : ℤ) ∧ st.epoch < cfg.maxIter
    · rw [if_pos hg] at h
      by_cases hs : (runInterval cfg train cfg.interval st).2.2 = true
      · simp only [hs, if_true] at h
        have hb := runInterval_yld_bound cfg train cfg.interval st e o h
        omega
      · rw [Bool.not_eq_true] at hs
        simp only [hs, Bool.false_eq_true, if_false] at h
        rcases List.mem_append.mp h with h1 | h2
        · have hb := runInterval_yld_bound cfg train cfg.interval st e o h1
          omega
        · rcases List.mem_cons.mp h2 with heq | hmem
          · cases heq
          · exact ih _ _ e o hmem
    · rw [if_neg hg] at h
      simp at h

theorem runStages_yld_bound {μ : Type} (cfg : ESConfig) (evalFn : μ → Objective)
    (train : ℕ → μ → μ) :
    ∀ (rem rep : ℕ) (st : ESState μ) (e : ℕ) (o : Objective),
      ESEvent.yld e o ∈ (runStages cfg evalFn train rem rep st).1 →
      e < cfg.maxIter + cfg.interval := by
  intro rem
  induction rem with
  | zero =>
    intro rep st e o h
    simp [runStages] at h
  | succ rem ih =>
    intro rep st e o h
    simp only [runStages] at h
    by_cases hs : (runWhile cfg evalFn train (cfg.maxIter + 1) (-1) st).2.2.2 = true
    · simp only [hs, if_true] at h
      exact runWhile_yld_bound cfg evalFn train _ _ st e o h
    · rw [Bool.not_eq_true] at hs
      simp only [hs, Bool.false_eq_true, if_false] at h
      by_cases hdc : decayCond cfg
          (runWhile cfg evalFn train (cfg.maxIter + 1) (-1) st).2.1.epoch rep = true
      · simp only [hdc, if_true] at h
        rcases List.mem_append.mp h with h1 | h2
        · exact runWhile_yld_bound cfg evalFn train _ _ st e o h1
        · rcases List.mem_cons.mp h2 with heq | hmem
          · cases heq
          · exact ih _ _ e o hmem
      · rw [Bool.not_eq_true] at hdc
        simp only [hdc, Bool.false_eq_true, if_false] at h
        rcases List.mem_append.mp h with h1 | h2
        · exact runWhile_yld_bound cfg evalFn train _ _ st e o h1
        · exact ih _ _ e o h2

theorem runInterval_complete {μ : Type} (cfg : ESConfig) (train : ℕ → μ → μ) :
    ∀ (k : ℕ) (st : ESState μ), (runInterval cfg train k st).2.2 = false →
      (runInterval cfg train k st).1.countP isYieldEv = k ∧
      (runInterval cfg train k st).2.1.epoch = st.epoch + k := by
  intro k
  induction k with
  | zero =>
    intro st _
    simp [runInterval]
  | succ k ih =>
    intro st h
    by_cases hd : objectiveDiverged st.curObj = true
    · rw [runInterval_diverged_eq cfg train k st hd] at h
      simp at h
    · rw [Bool.not_eq_true] at hd
      rw [runInterval_step_eq cfg train k st hd] at h ⊢
      have hrec := ih { st with epoch := st.epoch + 1, m := train (st.epoch + 1) st.m } h
      obtain ⟨hc, he⟩ := hrec
      refine ⟨?_, ?_⟩
      · simp [List.countP_cons, isYieldEv, hc]
      · simp only [he]
        omega

/-- Claim C10: (i) with `interval ≥ 1`, every epoch yielded by the
controller is at most `max_iter + interval - 1` (`max_iter` is only checked
at interval boundaries, so the overshoot never exceeds `interval - 1`);
(ii) an inner interval that does not trigger the divergence check yields
exactly `interval` epochs (it is never cut short by anything else);
(iii) the bound is attained: with `interval = 3, max_iter = 1` the run
yields epoch `3 = max_iter + interval - 1`. -/
theorem early_stopping_overshoot_spec :
    (∀ (μ : Type) (cfg : ESConfig) (evalFn : μ → Objective) (train : ℕ → μ → μ)
        (m0 : μ) (e : ℕ) (o : Objective), 1 ≤ cfg.interval →
      ESEvent.yld e o ∈ (early_stopping cfg evalFn train m0).1 →
      e ≤ cfg.maxIter + cfg.interval - 1) ∧
    (∀ (μ : Type) (cfg : ESConfig) (train : ℕ → μ → μ) (k : ℕ) (st : ESState μ),
      (runInterval cfg train k st).2.2 = false →
      (runInterval cfg train k st).1.countP isYieldEv = k) ∧
    (cfgOvershoot.maxIter + cfgOvershoot.interval - 1 = 3 ∧
      ESEvent.yld 3 [⟨Score.fin 0, Score.fin 0⟩] ∈
        (early_stopping cfgOvershoot evalFnFlat trainCount 0).1) := by
  refine ⟨?_, ?_, by decide, by with_unfolding_all decide⟩
  · intro μ cfg evalFn train m0 e o hint h
    simp only [early_stopping] at h
    by_cases hs : (runStages cfg evalFn train cfg.lrDecaySteps 0
        ⟨m0, m0, cfg.start, evalFn m0, evalFn m0⟩).2.2 = true
    · simp only [hs, if_true] at h
      have := runStages_yld_bound cfg evalFn train _ _ _ e o h
      omega
    · rw [Bool.not_eq_true] at hs
      simp only [hs, Bool.false_eq_true, if_false] at h
      rcases List.mem_append.mp h with h1 | h2
      · have := runStages_yld_bound cfg evalFn train _ _ _ e o h1
        omega
      · simp at h2
  · intro μ cfg train k st h
    exact (runInterval_complete cfg train k st h).1

/-- Witness for C10 on concrete runs: the overshoot run attains the bound,
and a two-epoch divergence-free interval yields exactly two epochs. -/
theorem early_stopping_overshoot_spec_witness :
    (1 ≤ cfgOvershoot.interval ∧
      ESEvent.yld 3 [⟨Score.fin 0, Score.fin 0⟩] ∈
        (early_stopping cfgOvershoot evalFnFlat trainCount 0).1 ∧
      3 ≤ cfgOvershoot.maxIter + cfgOvershoot.interval - 1) ∧
    ((runInterval cfgDiv trainCount 2 ⟨0, 0, 0, evalFnFlat 0, evalFnFlat 0⟩).2.2 = false ∧
      (runInterval cfgDiv trainCount 2
          ⟨0, 0, 0, evalFnFlat 0, evalFnFlat 0⟩).1.countP isYieldEv = 2) := by
  refine ⟨⟨by decide, by with_unfolding_all decide, ?_⟩,
    ⟨by with_unfolding_all decide, ?_⟩⟩
  · exact early_stopping_overshoot_spec.1 ℕ cfgOvershoot evalFnFlat trainCount 0 3
      [⟨Score.fin 0, Score.fin 0⟩] (by decide) (by with_unfolding_all decide)
  · exact early_stopping_overshoot_spec.2.1 ℕ cfgDiv trainCount 2
      ⟨0, 0, 0, evalFnFlat 0, evalFnFlat 0⟩ (by with_unfolding_all decide)

/-! ### Early stopping: divergence handling (claim C5) -/

theorem finalizeES_curObj {μ : Type} (cfg : ESConfig) (st : ESState μ) :
    (finalizeES cfg st).curObj = st.curObj := by
  rw [finalizeES]
  by_cases hr : cfg.restoreBest
  · rw [if_pos hr]
  · rw [if_neg hr]

theorem decay_lr_curObj {μ : Type} (cfg : ESConfig) (st : ESState μ) :
    (decay_lr cfg st).curObj = st.curObj := by
  rw [decay_lr]
  by_cases hr : cfg.restoreBest
  · rw [if_pos hr]
  · rw [if_neg hr]

theorem runInterval_nostop_nodiv {μ : Type} (cfg : ESConfig) (train : ℕ → μ → μ) :
    ∀ (k : ℕ) (st : ESState μ), (runInterval cfg train k st).2.2 = false →
      ESEvent.finalizeDiverged ∉ (runInterval cfg train k st).1 := by
  intro k
  induction k with
  | zero =>
    intro st _
    simp [runInterval]
  | succ k ih =>
    intro st h
    by_cases hd : objectiveDiverged st.curObj = true
    · rw [runInterval_diverged_eq cfg train k st hd] at h
      simp at h
    · rw [Bool.not_eq_true] at hd
      rw [runInterval_step_eq cfg train k st hd] at h ⊢
      intro hmem
      rcases List.mem_cons.mp hmem with heq | hmem2
      · cases heq
      · exact ih _ h hmem2

theorem runInterval_stop_char {μ : Type} (cfg : ESConfig) (train : ℕ → μ → μ) :
    ∀ (k : ℕ) (st : ESState μ), (runInterval cfg train k st).2.2 = true →
      objectiveDiverged st.curObj = true ∧
      (runInterval cfg train k st).1 = [ESEvent.finalizeDiverged] := by
  intro k
  induction k with
  | zero =>
    intro st h
    simp [runInterval] at h
  | succ k ih =>
    intro st h
    by_cases hd : objectiveDiverged st.curObj = true
    · exact ⟨hd, by rw [runInterval_diverged_eq cfg train k st hd]⟩
    · rw [Bool.not_eq_true] at hd
      rw [runInterval_step_eq cfg train k st hd] at h
      have := (ih _ h).1
      simp only at this
      rw [this] at hd
      cases hd

theorem runInterval_keep_curObj {μ : Type} (cfg : ESConfig) (train : ℕ → μ → μ) :
    ∀ (k : ℕ) (st : ESState μ),
      (runInterval cfg train k st).2.1.curObj = st.curObj := by
  intro k
  induction k with
  | zero =>
    intro st
    simp [runInterval]
  | succ k ih =>
    intro st
    by_cases hd : objectiveDiverged st.curObj = true
    · rw [runInterval_diverged_eq cfg train k st hd]
      simp only
      rw [finalizeES_curObj]
    · rw [Bool.not_eq_true] at hd
      rw [runInterval_step_eq cfg train k st hd]
      simp only
      rw [ih]

theorem runInterval_divfree_nostop {μ : Type} (cfg : ESConfig) (train : ℕ → μ → μ) :
    ∀ (k : ℕ) (st : ESState μ), objectiveDiverged st.curObj = false →
      (runInterval cfg train k st).2.2 = false := by
  intro k st hd
  by_cases h : (runInterval cfg train k st).2.2 = true
  · have := (runInterval_stop_char cfg train k st h).1
    rw [this] at hd
    cases hd
  · rwa [Bool.not_eq_true] at h

theorem runWhile_nostop_nodiv {μ : Type} (cfg : ESConfig) (evalFn : μ → Objective)
    (train : ℕ → μ → μ) :
    ∀ (fuel : ℕ) (pc : ℤ) (st : ESState μ),
      (runWhile cfg evalFn train fuel pc st).2.2.2 = false →
      ESEvent.finalizeDiverged ∉ (runWhile cfg evalFn train fuel pc st).1 := by
  intro fuel
  induction fuel with
  | zero =>
    intro pc st _
    simp [runWhile]
  | succ fuel ih =>
    intro pc st h
    simp only [runWhile] at h ⊢
    by_cases hg : pc < (cfg.patience : ℤ) ∧ st.epoch < cfg.maxIter
    · rw [if_pos hg] at h ⊢
      by_cases hs : (runInterval cfg train cfg.interval st).2.2 = true
      · simp only [hs, if_true] at h
        cases h
      · rw [Bool.not_eq_true] at hs
        simp only [hs, Bool.false_eq_true, if_false] at h ⊢
        intro hmem
        rcases List.mem_append.mp hmem with h1 | h2
        · exact runInterval_nostop_nodiv cfg train cfg.interval st hs h1
        · rcases List.mem_cons.mp h2 with heq | hmem2
          · cases heq
          · exact ih _ _ h hmem2
    · rw [if_neg hg]
      simp

theorem runWhile_divfree {μ : Type} (cfg : ESConfig) (evalFn : μ → Objective)
    (train : ℕ → μ → μ) (hEval : ∀ m', objectiveDiverged (evalFn m') = false) :
    ∀ (fuel : ℕ) (pc : ℤ) (st : ESState μ), objectiveDiverged st.curObj = false →
      (runWhile cfg evalFn train fuel pc st).2.2.2 = false ∧
      objectiveDiverged (runWhile cfg evalFn train fuel pc st).2.1.curObj = false := by
  intro fuel
  induction fuel with
  | zero =>
    intro pc st hd
    simpa [runWhile] using hd
  | succ fuel ih =>
    intro pc st hd
    simp only [runWhile]
    by_cases hg : pc < (cfg.patience : ℤ) ∧ st.epoch < cfg.maxIter
    · rw [if_pos hg]
      have hs : (runInterval cfg train cfg.interval st).2.2 = false :=
        runInterval_divfree_nostop cfg train cfg.interval st hd
      simp only [hs, Bool.false_eq_true, if_false]
      have hb : objectiveDiverged
          (runBoundary cfg evalFn (runInterval cfg train cfg.interval st).2.1 pc).1.curObj
            = false := by
        rw [runBoundary]
        by_cases himp : test_current_obj cfg.maximize cfg.tolerance
            (evalFn (runInterval cfg train cfg.interval st).2.1.m)
            (runInterval cfg train cfg.interval st).2.1.bestObj = true
        · rw [if_pos himp]
          exact hEval _
        · rw [if_neg himp]
          exact hEval _
      exact ih _ _ hb
    · rw [if_neg hg]
      simpa using hd

theorem runWhile_stop_char {μ : Type} (cfg : ESConfig) (evalFn : μ → Objective)
    (train : ℕ → μ → μ) :
    ∀ (fuel : ℕ) (pc : ℤ) (st : ESState μ),
      (runWhile cfg evalFn train fuel pc st).2.2.2 = true →
      ∃ pre, (runWhile cfg evalFn train fuel pc st).1 = pre ++ [ESEvent.finalizeDiverged] ∧
        ESEvent.finalizeDiverged ∉ pre := by
  intro fuel
  induction fuel with
  | zero =>
    intro pc st h
    simp [runWhile] at h
  | succ fuel ih =>
    intro pc st h
    simp only [runWhile] at h ⊢
    by_cases hg : pc < (cfg.patience : ℤ) ∧ st.epoch < cfg.maxIter
    · rw [if_pos hg] at h ⊢
      by_cases hs : (runInterval cfg train cfg.interval st).2.2 = true
      · simp only [hs, if_true]
        refine ⟨[], ?_, by simp⟩
        simp only [List.nil_append]
        exact (runInterval_stop_char cfg train cfg.interval st hs).2
      · rw [Bool.not_eq_true] at hs
        simp only [hs, Bool.false_eq_true, if_false] at h ⊢
        obtain ⟨pre, hpre, hnotin⟩ := ih _ _ h
        refine ⟨(runInterval cfg train cfg.interval st).1 ++
          ESEvent.boundary
            (runBoundary cfg evalFn (runInterval cfg train cfg.interval st).2.1 pc).2.2
            (runBoundary cfg evalFn (runInterval cfg train cfg.interval st).2.1 pc).2.1
              :: pre, ?_, ?_⟩
        · rw [hpre]
          simp
        · intro hmem
          rcases List.mem_append.mp hmem with h1 | h2
          · exact runInterval_nostop_nodiv cfg train cfg.interval st hs h1
          · rcases List.mem_cons.mp h2 with heq | hmem2
            · cases heq
            · exact hnotin hmem2
    · rw [if_neg hg] at h
      simp at h

theorem runStages_nostop_nodiv {μ : Type} (cfg : ESConfig) (evalFn : μ → Objective)
    (train : ℕ → μ → μ) :
    ∀ (rem rep : ℕ) (st : ESState μ),
      (runStages cfg evalFn train rem rep st).2.2 = false →
      ESEvent.finalizeDiverged ∉ (runStages cfg evalFn train rem rep st).1 := by
  intro rem
  induction rem with
  | zero =>
    intro rep st _
    simp [runStages]
  | succ rem ih =>
    intro rep st h
    simp only [runStages] at h ⊢
    by_cases hs : (runWhile cfg evalFn train (cfg.maxIter + 1) (-1) st).2.2.2 = true
    · simp only [hs, if_true] at h
      cases h
    · rw [Bool.not_eq_true] at hs
      simp only [hs, Bool.false_eq_true, if_false] at h ⊢
      by_cases hdc : decayCond cfg
          (runWhile cfg evalFn train (cfg.maxIter + 1) (-1) st).2.1.epoch rep = true
      · simp only [hdc, if_true] at h ⊢
        intro hmem
        rcases List.mem_append.mp hmem with h1 | h2
        · exact runWhile_nostop_nodiv cfg evalFn train _ _ st hs h1
        · rcases List.mem_cons.mp h2 with heq | hmem2
          · cases heq
          · exact ih _ _ h hmem2
      · rw [Bool.not_eq_true] at hdc
        simp only [hdc, Bool.false_eq_true, if_false] at h ⊢
        intro hmem
        rcases List.mem_append.mp hmem with h1 | h2
        · exact runWhile_nostop_nodiv cfg evalFn train _ _ st hs h1
        · exact ih _ _ h h2

theorem runStages_divfree {μ : Type} (cfg : ESConfig) (evalFn : μ → Objective)
    (train : ℕ → μ → μ) (hEval : ∀ m', objectiveDiverged (evalFn m') = false) :
    ∀ (rem rep : ℕ) (st : ESState μ), objectiveDiverged st.curObj = false →
      (runStages cfg evalFn train rem rep st).2.2 = false := by
  intro rem
  induction rem with
  | zero =>
    intro rep st _
    simp [runStages]
  | succ rem ih =>
    intro rep st hd
    simp only [runStages]
    obtain ⟨hs, hcur⟩ := runWhile_divfree cfg evalFn train hEval (cfg.maxIter + 1) (-1) st hd
    simp only [hs, Bool.false_eq_true, if_false]
    by_cases hdc : decayCond cfg
        (runWhile cfg evalFn train (cfg.maxIter + 1) (-1) st).2.1.epoch rep = true
    · simp only [hdc, if_true]
      exact ih _ _ (by rw [decay_lr_curObj]; exact hcur)
    · rw [Bool.not_eq_true] at hdc
      simp only [hdc, Bool.false_eq_true, if_false]
      exact ih _ _ hcur

theorem runStages_stop_char {μ : Type} (cfg : ESConfig) (evalFn : μ → Objective)
    (train : ℕ → μ → μ) :
    ∀ (rem rep : ℕ) (st : ESState μ),
      (runStages cfg evalFn train rem rep st).2.2 = true →
      ∃ pre, (runStages cfg evalFn train rem rep st).1
          = pre ++ [ESEvent.finalizeDiverged] ∧
        ESEvent.finalizeDiverged ∉ pre := by
  intro rem
  induction rem with
  | zero =>
    intro rep st h
    simp [runStages] at h
  | succ rem ih =>
    intro rep st h
    simp only [runStages] at h ⊢
    by_cases hs : (runWhile cfg evalFn train (cfg.maxIter + 1) (-1) st).2.2.2 = true
    · simp only [hs, if_true]
      exact runWhile_stop_char cfg evalFn train _ _ st hs
    · rw [Bool.not_eq_true] at hs
      simp only [hs, Bool.false_eq_true, if_false] at h ⊢
      by_cases hdc : decayCond cfg
          (runWhile cfg evalFn train (cfg.maxIter + 1) (-1) st).2.1.epoch rep = true
      · simp only [hdc, if_true] at h ⊢
        obtain ⟨pre, hpre, hnotin⟩ := ih _ _ h
        refine ⟨(runWhile cfg evalFn train (cfg.maxIter + 1) (-1) st).1 ++
          ESEvent.decay :: pre, ?_, ?_⟩
        · rw [hpre]
          simp
        · intro hmem
          rcases List.mem_append.mp hmem with h1 | h2
          · exact runWhile_nostop_nodiv cfg evalFn train _ _ st hs h1
          · rcases List.mem_cons.mp h2 with heq | hmem2
            · cases heq
            · exact hnotin hmem2
      · rw [Bool.not_eq_true] at hdc
        simp only [hdc, Bool.false_eq_true, if_false] at h ⊢
        obtain ⟨pre, hpre, hnotin⟩ := ih _ _ h
        refine ⟨(runWhile cfg evalFn train (cfg.maxIter + 1) (-1) st).1 ++ pre, ?_, ?_⟩
        · rw [hpre]
          simp
        · intro hmem
          rcases List.mem_append.mp hmem with h1 | h2
          · exact runWhile_nostop_nodiv cfg evalFn train _ _ st hs h1
          · exact hnotin h2

theorem append_singleton_last {α : Type} (x : α) :
    ∀ (p1 p2 p3 : List α), x ∉ p1 → p1 ++ [x] = p2 ++ x :: p3 → p3 = [] := by
  intro p1 p2
  induction p2 generalizing p1 with
  | nil =>
    intro p3 hx h
    cases p1 with
    | nil =>
      simp only [List.nil_append] at h
      exact ((List.cons.injEq _ _ _ _).mp h |>.2).symm
    | cons a p1t =>
      simp only [List.cons_append, List.nil_append] at h
      have ha : a = x := (List.cons.injEq _ _ _ _).mp h |>.1
      exact absurd (ha ▸ List.mem_cons_self a p1t) hx
  | cons b p2t ih =>
    intro p3 hx h
    cases p1 with
    | nil =>
      simp only [List.nil_append, List.cons_append] at h
      have := (List.cons.injEq _ _ _ _).mp h |>.2
      cases p2t with
      | nil => simp at this
      | cons c p2tt => simp at this
    | cons a p1t =>
      simp only [List.cons_append] at h
      have hth := (List.cons.injEq _ _ _ _).mp h |>.2
      exact ih p1t p3 (fun hm => hx (List.mem_cons_of_mem a hm)) hth

/-- Claim C5: (i) when any value of the current objective record is
non-finite, the next epoch of the interval loop immediately finalizes
(restoring the best snapshot into the live model iff `restore_best`),
yields nothing, and signals the generator's return; (ii) when every
objective the evaluation closure can produce is finite, the divergence
finalization never occurs; (iii) the divergence finalization, when it
occurs, is the last event of the run — no further epochs are yielded. -/
theorem early_stopping_divergence_spec :
    (∀ (μ : Type) (cfg : ESConfig) (train : ℕ → μ → μ) (k : ℕ) (st : ESState μ),
      objectiveDiverged st.curObj = true →
      runInterval cfg train (k + 1) st
        = ([ESEvent.finalizeDiverged], finalizeES cfg { st with epoch := st.epoch + 1 },
          true)) ∧
    (∀ (μ : Type) (cfg : ESConfig) (evalFn : μ → Objective) (train : ℕ → μ → μ) (m0 : μ),
      (∀ m', objectiveDiverged (evalFn m') = false) →
      ESEvent.finalizeDiverged ∉ (early_stopping cfg evalFn train m0).1) ∧
    (∀ (μ : Type) (cfg : ESConfig) (evalFn : μ → Objective) (train : ℕ → μ → μ) (m0 : μ)
        (pre post : List ESEvent),
      (early_stopping cfg evalFn train m0).1 = pre ++ ESEvent.finalizeDiverged :: post →
      post = []) := by
  refine ⟨?_, ?_, ?_⟩
  · intro μ cfg train k st hd
    exact runInterval_diverged_eq cfg train k st hd
  · intro μ cfg evalFn train m0 hEval
    simp only [early_stopping]
    have hstop : (runStages cfg evalFn train cfg.lrDecaySteps 0
        ⟨m0, m0, cfg.start, evalFn m0, evalFn m0⟩).2.2 = false :=
      runStages_divfree cfg evalFn train hEval _ _ _ (hEval m0)
    simp only [hstop, Bool.false_eq_true, if_false]
    intro hmem
    rcases List.mem_append.mp hmem with h1 | h2
    · exact runStages_nostop_nodiv cfg evalFn train _ _ _ hstop h1
    · simp at h2
  · intro μ cfg evalFn train m0 pre post h
    simp only [early_stopping] at h
    by_cases hs : (runStages cfg evalFn train cfg.lrDecaySteps 0
        ⟨m0, m0, cfg.start, evalFn m0, evalFn m0⟩).2.2 = true
    · simp only [hs, if_true] at h
      obtain ⟨pre2, hpre2, hnotin⟩ := runStages_stop_char cfg evalFn train _ _ _ hs
      rw [h] at hpre2
      exact append_singleton_last ESEvent.finalizeDiverged pre2 pre post hnotin hpre2.symm
    · rw [Bool.not_eq_true] at hs
      simp only [hs, Bool.false_eq_true, if_false] at h
      have hnodiv := runStages_nostop_nodiv cfg evalFn train _ _
        (⟨m0, m0, cfg.start, evalFn m0, evalFn m0⟩ : ESState μ) hs
      have hmem : ESEvent.finalizeDiverged ∈ (runStages cfg evalFn train cfg.lrDecaySteps 0
          ⟨m0, m0, cfg.start, evalFn m0, evalFn m0⟩).1 ++ [ESEvent.finalizeEnd] := by
        rw [h]
        exact List.mem_append.mpr (Or.inr (List.mem_cons_self _ _))
      rcases List.mem_append.mp hmem with h1 | h2
      · exact absurd h1 hnodiv
      · simp at h2

/-- Witness for C5: a NaN current record makes the interval loop finalize
at once (with the best snapshot restored); an all-finite closure's run
never emits the divergence event; in a NaN run the divergence event is
last. -/
theorem early_stopping_divergence_spec_witness :
    (objectiveDiverged divergedSt.curObj = true ∧
      runInterval cfgDiv trainCount 1 divergedSt
        = ([ESEvent.finalizeDiverged],
          finalizeES cfgDiv { divergedSt with epoch := divergedSt.epoch + 1 }, true)) ∧
    (ESEvent.finalizeDiverged ∉ (early_stopping cfgDiv evalFnFlat trainCount 0).1) ∧
    ((early_stopping cfgDiv evalFnNaN trainCount 0).1
        = [] ++ ESEvent.finalizeDiverged :: [] ∧
      ([] : List ESEvent) = []) := by
  refine ⟨⟨by decide, ?_⟩, ?_, ⟨by with_unfolding_all decide, ?_⟩⟩
  · exact early_stopping_divergence_spec.1 ℕ cfgDiv trainCount 0 divergedSt (by decide)
  · exact early_stopping_divergence_spec.2.1 ℕ cfgDiv evalFnFlat trainCount 0
      (fun _ => rfl)
  · exact early_stopping_divergence_spec.2.2 ℕ cfgDiv evalFnNaN trainCount 0 [] []
      (by with_unfolding_all decide)

/-! ### The `_objective` mode switch (claim C8) -/

/-- Counterexample to claim C8 as stated: `_objective` has no
`try/finally`, so when the evaluation closure raises, the model is left in
eval mode (`training = false`) instead of its prior train mode. -/
theorem objectiveWithMode_counterexample :
    (objectiveWithMode true true (fun _ => Except.error (0 : ℕ)) true).2 = false ∧
    ¬(objectiveWithMode true true (fun _ => Except.error (0 : ℕ)) true).2 = true := by
  exact ⟨rfl, by decide⟩

/-- Claim C8 (amended): with `switch_mode`, `_objective` switches the model
to eval mode and runs the closure there; on normal return it sets the mode
to the `training` flag captured when the generator started (the prior mode
whenever the mode has not changed since); when the closure raises, the
exception propagates with the model left in eval mode.  Without
`switch_mode` the mode is untouched. -/
theorem objectiveWithMode_spec {ε : Type} (ts mode : Bool)
    (closure : Bool → Except ε Objective) :
    (∀ r, closure false = Except.ok r →
      objectiveWithMode true ts closure mode = (Except.ok r, ts)) ∧
    (∀ e, closure false = Except.error e →
      objectiveWithMode true ts closure mode = (Except.error e, false)) ∧
    (objectiveWithMode false ts closure mode).2 = mode := by
  refine ⟨?_, ?_, ?_⟩
  · intro r h
    simp [objectiveWithMode, h]
  · intro e h
    simp [objectiveWithMode, h]
  · cases hc : closure mode <;> simp [objectiveWithMode, hc]

/-- Witness for the amended C8: an `ok` closure restores the captured
training flag, an `error` closure leaves eval mode, and without
`switch_mode` the mode is untouched. -/
theorem objectiveWithMode_spec_witness :
    objectiveWithMode true true (fun _ => (Except.ok [] : Except ℕ Objective)) true
        = (Except.ok ([] : Objective), true) ∧
    objectiveWithMode true true (fun _ => (Except.error 7 : Except ℕ Objective)) true
        = (Except.error (7 : ℕ), false) ∧
    (objectiveWithMode false true
      (fun _ => (Except.ok [] : Except ℕ Objective)) true).2 = true := by
  refine ⟨?_, ?_, ?_⟩
  · exact (objectiveWithMode_spec true true
      (fun _ => (Except.ok [] : Except ℕ Objective))).1 [] rfl
  · exact (objectiveWithMode_spec true true
      (fun _ => (Except.error 7 : Except ℕ Objective))).2.1 7 rfl
  · exact (objectiveWithMode_spec true true
      (fun _ => (Except.ok [] : Except ℕ Objective))).2.2

/-! ### Lottery-ticket pruning: monotone sparsification (claim C4) -/

theorem pruneMask_zero_stays (pv : ℚ) :
    ∀ (p m : List ℚ) (j : ℕ), p.length = m.length → m.getD j 1 = 0 →
      ((p.zip m).map (fun e => if |e.1| < pv then 0 else e.2)).getD j 1 = 0 := by
  intro p
  induction p with
  | nil =>
    intro m j hlen h
    cases m with
    | nil => norm_num [List.getD] at h
    | cons b mt => simp at hlen
  | cons a pt ih =>
    intro m j hlen h
    cases m with
    | nil => simp at hlen
    | cons b mt =>
      cases j with
      | zero =>
        simp only [List.getD_cons_zero] at h
        simp only [List.zip_cons_cons, List.map_cons, List.getD_cons_zero, h]
        by_cases hc : |a| < pv
        · rw [if_pos hc]
        · rw [if_neg hc]
      | succ j =>
        simp only [List.getD_cons_succ] at h
        simp only [List.zip_cons_cons, List.map_cons, List.getD_cons_succ]
        exact ih mt j (by simpa using hlen) h

theorem pruneMask_count_mono (pv : ℚ) :
    ∀ (p m : List ℚ), p.length = m.length →
      m.countP (fun q => q == 0)
        ≤ ((p.zip m).map (fun e => if |e.1| < pv then 0 else e.2)).countP
            (fun q => q == 0) := by
  intro p
  induction p with
  | nil =>
    intro m hlen
    cases m with
    | nil => simp
    | cons b mt => simp at hlen
  | cons a pt ih =>
    intro m hlen
    cases m with
    | nil => simp at hlen
    | cons b mt =>
      simp only [List.zip_cons_cons, List.map_cons, List.countP_cons]
      have hrec := ih mt (by simpa using hlen)
      have hhd : (if (b == 0) = true then 1 else 0)
          ≤ (if ((if |a| < pv then (0 : ℚ) else b) == 0) = true then 1 else 0) := by
        by_cases hb : b = 0
        · subst hb
          by_cases hc : |a| < pv
          · simp [hc]
          · simp [hc]
        · simp [hb]
      omega

theorem getD_map_lt {α β : Type} (f : α → β) (l : List α) (d : α) (d' : β) (i : ℕ)
    (hi : i < l.length) : (l.map f).getD i d' = f (l.getD i d) := by
  rw [List.getD_eq_get?, List.getD_eq_get?, List.get?_map, List.get?_eq_get hi]
  rfl

/-- Claim C4: pruning is monotone — for any model, mask and configuration
(global or per-tensor percentile), every mask entry that is `0` before
`prune_by_percentile` is still `0` after it, and, per tensor, the number of
zero mask entries never decreases. -/
theorem prune_by_percentile_monotone :
    ∀ (global_pruning : Bool) (percent : ℚ) (layers : List (List ℚ × List ℚ))
      (ti j : ℕ),
      (layers.getD ti ([], [])).1.length = (layers.getD ti ([], [])).2.length →
      (((layers.getD ti ([], [])).2.getD j 1 = 0 →
        ((prune_by_percentile global_pruning percent layers).getD ti ([], [])).2.getD j 1
          = 0) ∧
      (layers.getD ti ([], [])).2.countP (fun q => q == 0)
        ≤ ((prune_by_percentile global_pruning percent layers).getD ti
            ([], [])).2.countP (fun q => q == 0)) := by
  intro g percent layers ti j hlen
  by_cases hti : ti < layers.length
  · have hmap : (prune_by_percentile g percent layers).getD ti ([], [])
        = (fun layer =>
            let pv := if g then
                npPercentile (((layers.flatMap aliveValues).map (fun q => |q|))) percent
              else npPercentile ((aliveValues layer).map (fun q => |q|)) percent
            pruneTensor pv layer) (layers.getD ti ([], [])) := by
      rw [prune_by_percentile]
      exact getD_map_lt _ layers ([], []) ([], []) ti hti
    rw [hmap]
    constructor
    · intro h
      exact pruneMask_zero_stays _ (layers.getD ti ([], [])).1
        (layers.getD ti ([], [])).2 j hlen h
    · exact pruneMask_count_mono _ (layers.getD ti ([], [])).1
        (layers.getD ti ([], [])).2 hlen
  · have hl : layers.getD ti ([], []) = ([], []) := by
      rw [List.getD_eq_get?, List.get?_eq_none.mpr (by omega)]
      rfl
    have hl2 : (prune_by_percentile g percent layers).getD ti ([], []) = ([], []) := by
      rw [List.getD_eq_get?, List.get?_eq_none.mpr (by simp [prune_by_percentile]; omega)]
      rfl
    rw [hl, hl2]
    refine ⟨?_, by simp⟩
    intro h
    norm_num [List.getD] at h

/-- Witness for C4 on a concrete layer `param = [3, 1/2, 0]`,
`mask = [1, 1, 0]` with per-tensor percentile 50. -/
theorem prune_by_percentile_monotone_witness :
    ([([(3 : ℚ), 1 / 2, 0], [(1 : ℚ), 1, 0])].getD 0 ([], [])).1.length
      = ([([(3 : ℚ), 1 / 2, 0], [(1 : ℚ), 1, 0])].getD 0 ([], [])).2.length ∧
    (([([(3 : ℚ), 1 / 2, 0], [(1 : ℚ), 1, 0])].getD 0 ([], [])).2.getD 2 1 = 0 →
      ((prune_by_percentile false 50 [([(3 : ℚ), 1 / 2, 0], [(1 : ℚ), 1, 0])]).getD 0
          ([], [])).2.getD 2 1 = 0) ∧
    ([([(3 : ℚ), 1 / 2, 0], [(1 : ℚ), 1, 0])].getD 0 ([], [])).2.countP (fun q => q == 0)
      ≤ ((prune_by_percentile false 50 [([(3 : ℚ), 1 / 2, 0], [(1 : ℚ), 1, 0])]).getD 0
          ([], [])).2.countP (fun q => q == 0) := by
  have h := prune_by_percentile_monotone false 50 [([(3 : ℚ), 1 / 2, 0], [(1 : ℚ), 1, 0])]
    0 2 (by with_unfolding_all decide)
  exact ⟨by with_unfolding_all decide, h.1, h.2⟩

/-! ### Lottery-ticket pruning: `reset_initialization` (claim C6) -/

/-- Counterexample to claim C6 as stated: a parameter whose name contains
neither `"bias"` nor `"weight"` (such as the `log_w` of the repository's
loss wrappers) is left untouched by `reset_initialization`, not restored to
its saved initial value. -/
theorem reset_initialization_counterexample :
    reset_initialization "fc" false (fun _ => [7]) [] [("log_w", [5])]
      = [("log_w", [(5 : ℚ)])] ∧
    ¬reset_initialization "fc" false (fun _ => [7]) [] [("log_w", [5])]
      = [("log_w", [(7 : ℚ)])] := by
  constructor
  · rfl
  · decide

theorem resetGo_get? (readout : String) (reinit : Bool) (initSD : String → List ℚ)
    (mask : List (List ℚ)) :
    ∀ (params : List (String × List ℚ)) (step t : ℕ),
      (resetGo readout reinit initSD mask step params).get? t
        = (params.get? t).map (resetEntrySpec readout reinit initSD mask
            (step + (params.take t).countP (fun r => isPrunable readout r.1))) := by
  intro params
  induction params with
  | nil =>
    intro step t
    simp [resetGo]
  | cons hd rest ih =>
    obtain ⟨name, p⟩ := hd
    intro step t
    by_cases hpr : isPrunable readout name = true
    · simp only [resetGo, hpr, if_true]
      cases t with
      | zero =>
        simp [resetEntrySpec, hpr]
      | succ t =>
        simp only [List.get?_cons_succ, List.take_succ_cons, List.countP_cons, hpr,
          if_true]
        rw [ih (step + 1) t]
        have harith : step + 1 + (rest.take t).countP (fun r => isPrunable readout r.1)
            = step + ((rest.take t).countP (fun r => isPrunable readout r.1) + 1) := by
          omega
        rw [harith]
    · rw [Bool.not_eq_true] at hpr
      by_cases hbw : (strContains name "bias" || strContains name "weight") = true
      · simp only [resetGo, hpr, Bool.false_eq_true, if_false, hbw, if_true]
        cases t with
        | zero =>
          simp [resetEntrySpec, hpr, hbw]
        | succ t =>
          simp only [List.get?_cons_succ, List.take_succ_cons, List.countP_cons, hpr]
          rw [ih step t]
          simp
      · rw [Bool.not_eq_true] at hbw
        simp only [resetGo, hpr, Bool.false_eq_true, if_false, hbw]
        cases t with
        | zero =>
          simp [resetEntrySpec, hpr, hbw]
        | succ t =>
          simp only [List.get?_cons_succ, List.take_succ_cons, List.countP_cons, hpr]
          rw [ih step t]
          simp

/-- Claim C6 (amended): `reset_initialization` maps the `t`-th named
parameter as follows, with `idx` the number of earlier prunable parameters:
a prunable parameter (name containing `"weight"` and not the readout name)
becomes `mask[idx] * init`; a non-prunable parameter whose name contains
`"bias"` or `"weight"` (the readout included) becomes `init`; every other
parameter is left unchanged.  Here `init` is the parameter's saved initial
value, or its freshly reinitialized value when `reinit` is set. -/
theorem reset_initialization_spec (readout : String) (reinit : Bool)
    (initSD : String → List ℚ) (mask : List (List ℚ))
    (params : List (String × List ℚ)) (t : ℕ) :
    (reset_initialization readout reinit initSD mask params).get? t
      = (params.get? t).map (resetEntrySpec readout reinit initSD mask
          ((params.take t).countP (fun r => isPrunable readout r.1))) := by
  rw [reset_initialization, resetGo_get? readout reinit initSD mask params 0 t]
  rw [Nat.zero_add]

/-! ### Lottery-ticket pruning: the per-round sparsity target (claim C9) -/

/-- Claim C9: the per-round sparsity fraction of the pruner (the attribute
stores it as a percentage, so the fraction is `percent_per_round / 100`)
equals `1 - (1 - percent_to_prune/100)^(1/rounds)`, and `rounds` successive
applications of that fraction compound to the overall target:
`(1 - fraction)^rounds = 1 - percent_to_prune/100`. -/
theorem percentPerRound_spec (p : ℝ) (n : ℕ) (h0 : 0 ≤ p) (h100 : p ≤ 100)
    (hn : 1 ≤ n) :
    percentPerRound p n / 100 = 1 - (1 - p / 100) ^ ((1 : ℝ) / (n : ℝ)) ∧
    (1 - percentPerRound p n / 100) ^ n = 1 - p / 100 := by
  have hfrac : percentPerRound p n / 100
      = 1 - (1 - p / 100) ^ ((1 : ℝ) / (n : ℝ)) := by
    rw [percentPerRound]
    ring
  refine ⟨hfrac, ?_⟩
  rw [hfrac, sub_sub_cancel]
  have hb : (0 : ℝ) ≤ 1 - p / 100 := by linarith
  have hnpos : (0 : ℝ) < (n : ℝ) := by
    have : (1 : ℝ) ≤ (n : ℝ) := by exact_mod_cast hn
    linarith
  rw [← Real.rpow_natCast ((1 - p / 100) ^ ((1 : ℝ) / (n : ℝ))) n, ← Real.rpow_mul hb,
    one_div_mul_cancel (ne_of_gt hnpos), Real.rpow_one]

/-- Witness for C9 at `percent_to_prune = 75`, `rounds = 2`. -/
theorem percentPerRound_spec_witness :
    (0 : ℝ) ≤ 75 ∧ (75 : ℝ) ≤ 100 ∧ (1 : ℕ) ≤ 2 ∧
    (percentPerRound 75 2 / 100 = 1 - (1 - 75 / 100) ^ ((1 : ℝ) / ((2 : ℕ) : ℝ)) ∧
      (1 - percentPerRound 75 2 / 100) ^ (2 : ℕ) = 1 - 75 / 100) := by
  exact ⟨by norm_num, by norm_num, by norm_num,
    percentPerRound_spec 75 2 (by norm_num) (by norm_num) (by norm_num)⟩

end NNTransfer
